import Mathlib

/-!
Verification of the crypto-tracker incremental synchronization pipeline
(symbol acquisition, sync-gap resolution, multi-source fetch & persistence)
and of the coin-history API route.

The pipeline's Python filters are documented in the repository
(`Domashna 1/*.md`, `schema.sql`, `schema_simplified.sql`); the filter
implementations themselves are not part of the source tree, so those
operations are modelled from the specification, faithful to its words and
to the SQL / pseudocode fragments quoted in the repository documentation.
The coin API route (`Domashna 2/.../api/coins/[symbol]/route.js`) is
embedded directly from its JavaScript source.

Symbols, exchange names and dates are identified by numeric codes: the
claims under study never depend on the textual content of a symbol, only
on equality of symbols and ordering of dates (dates are day numbers).
-/

set_option maxHeartbeats 1000000

namespace CryptoTracker

/-- Symbol / exchange identifiers (numeric codes standing for the strings). -/
abbrev Sym := Nat

/-- Calendar dates as day numbers (ordering and +1 arithmetic preserved). -/
abbrev Date := Nat

/-- One OHLCV candle as returned by an exchange API:
`(timestamp, open, high, low, close, volume)`. -/
structure Candle where
  date : Date
  o : Nat
  h : Nat
  l : Nat
  c : Nat
  v : Nat
deriving DecidableEq, Repr

/-- A row of the `crypto_data` table (schema.sql): OHLCV fields plus the
`exchange` (data source) column; unique on `(symbol, date, exchange)`. -/
structure OhlcvRow where
  symbol : Sym
  date : Date
  o : Nat
  h : Nat
  l : Nat
  c : Nat
  v : Nat
  exchange : Sym
deriving DecidableEq, Repr

/-- A row of the `crypto_metadata` table (schema_simplified.sql): unique on
`symbol`; carries `rank`, `last_sync_date` (nullable), `total_records` and
the trigger-maintained `updated_at` timestamp. -/
structure MetaRow where
  symbol : Sym
  name : Sym
  rank : Option Nat
  last_sync_date : Option Date
  total_records : Nat
  updated_at : Nat
deriving DecidableEq, Repr

/-- The relational store: the two tables the pipeline reads and writes. -/
structure Store where
  crypto_data : List OhlcvRow
  crypto_metadata : List MetaRow
deriving DecidableEq, Repr

/-- The conflict key of `crypto_data`: `UNIQUE(symbol, date, exchange)`. -/
def rowKey (r : OhlcvRow) : Sym × Date × Sym := (r.symbol, r.date, r.exchange)

/-- Modelled from the spec: `INSERT ... ON CONFLICT (symbol, date, exchange)
DO UPDATE` — if a row with the same key exists it is overwritten in place
(last write wins), otherwise the row is appended. -/
def upsertRow (tbl : List OhlcvRow) (r : OhlcvRow) : List OhlcvRow :=
  if tbl.any (fun x => rowKey x = rowKey r) then
    tbl.map (fun x => if rowKey x = rowKey r then r else x)
  else tbl ++ [r]

/-- Modelled from the spec: batch upsert of the normalized records of one
run, row by row. -/
def upsertBatch (tbl : List OhlcvRow) (rs : List OhlcvRow) : List OhlcvRow :=
  rs.foldl upsertRow tbl

/-- Lookup of a symbol's metadata row (`crypto_metadata` is unique on
`symbol`). -/
def metaLookup (ms : List MetaRow) (s : Sym) : Option MetaRow :=
  ms.find? (fun m => m.symbol = s)

/-- Modelled from the spec: the per-symbol sync-gap decision of Filter 2
("Check last_sync_date for Each Coin"):
no metadata row / `last_sync_date` NULL → full history
`[today − lookback, today]`; `last_sync_date = d < today` →
`[d + 1, today]`; otherwise the symbol is dropped (nothing to sync).
Result: `some (first missing day, last missing day, is_full_history)`. -/
def resolveGap (today lookbackDays : Nat) (last : Option Date) :
    Option (Date × Date × Bool) :=
  match last with
  | none => some (today - lookbackDays, today, true)
  | some d => if d < today then some (d + 1, today, false) else none

/-- One emitted sync-gap descriptor of Filter 2. -/
structure GapInfo where
  symbol : Sym
  gap_start : Date
  gap_end : Date
  is_full_history : Bool
deriving DecidableEq, Repr

/-- Modelled from the spec: `get_all_last_sync_dates_batch` — ONE
`IN`-membership query over all input symbols against `crypto_metadata`,
returning the `(symbol, last_sync_date)` dictionary. -/
def get_all_last_sync_dates_batch (ms : List MetaRow) (syms : List Sym) :
    List (Sym × Option Date) :=
  (ms.filter (fun m => syms.contains m.symbol)).map
    (fun m => (m.symbol, m.last_sync_date))

/-- Lookup in the `(symbol, last_sync_date)` dictionary returned by the
batch query (`row.get` of the Python dict comprehension). -/
def dictLookup (dict : List (Sym × Option Date)) (s : Sym) : Option Date :=
  match dict.find? (fun p => p.1 = s) with
  | none => none
  | some p => p.2

/-- Modelled from the spec: Filter 2's per-symbol step — read the symbol's
last sync date out of the batch dictionary and turn it into an emitted
`GapInfo` (or `none` when the symbol is dropped). -/
def gapFor (today lookbackDays : Nat) (ms : List MetaRow) (syms : List Sym)
    (s : Sym) : Option GapInfo :=
  (resolveGap today lookbackDays
      (dictLookup (get_all_last_sync_dates_batch ms syms) s)).map fun t =>
    ⟨s, t.1, t.2.1, t.2.2⟩

/-- Modelled from the spec: Filter 2 (sync-gap resolver). Performs the one
batch metadata read, then derives each symbol's missing range purely from
the returned dictionary. The second component is the trace of metadata
store reads issued, each read recorded as the list of symbols it covers;
the resolver issues exactly one. -/
def filter2_check_last_date (today lookbackDays : Nat) (ms : List MetaRow)
    (syms : List Sym) : List GapInfo × List (List Sym) :=
  (syms.filterMap (gapFor today lookbackDays ms syms), [syms])

/-- The batch dictionary lookup agrees with a per-row metadata lookup for
any symbol that was part of the batch. -/
theorem dictLookup_batch (ms : List MetaRow) (syms : List Sym) (s : Sym)
    (hs : s ∈ syms) :
    dictLookup (get_all_last_sync_dates_batch ms syms) s =
      (metaLookup ms s).bind (fun m => m.last_sync_date) := by
  induction ms with
  | nil => rfl
  | cons m ms ih =>
    simp only [get_all_last_sync_dates_batch, metaLookup, List.filter_cons] at ih ⊢
    by_cases hm : m.symbol = s
    · have hc : syms.contains m.symbol = true := by
        rw [hm]; exact List.elem_eq_true_of_mem hs
      rw [if_pos hc, List.map_cons]
      simp [dictLookup, List.find?_cons, hm]
    · by_cases hc : syms.contains m.symbol = true
      · rw [if_pos hc, List.map_cons]
        simp only [dictLookup] at ih ⊢
        simpa [List.find?_cons, hm] using ih
      · rw [if_neg hc]
        simpa [List.find?_cons, hm] using ih

/-- An emitted gap descriptor carries the symbol it was emitted for. -/
theorem gapFor_symbol (today lb : Nat) (ms : List MetaRow) (syms : List Sym)
    (s : Sym) (g : GapInfo) (h : gapFor today lb ms syms s = some g) :
    g.symbol = s := by
  unfold gapFor at h
  cases hr : resolveGap today lb
      (dictLookup (get_all_last_sync_dates_batch ms syms) s) with
  | none => rw [hr] at h; simp at h
  | some t => rw [hr] at h; simp at h; rw [← h]

/-- For a symbol in the batch, `gapFor` is `resolveGap` applied to the
symbol's stored last sync date. -/
theorem gapFor_eval (today lb : Nat) (ms : List MetaRow) (syms : List Sym)
    (s : Sym) (hs : s ∈ syms) :
    gapFor today lb ms syms s =
      (resolveGap today lb
          ((metaLookup ms s).bind (fun m => m.last_sync_date))).map fun t =>
        ⟨s, t.1, t.2.1, t.2.2⟩ := by
  unfold gapFor
  rw [dictLookup_batch ms syms s hs]

/-- C3: sync-gap resolution is exact. For a symbol whose metadata row has
`last_sync_date = d` with `today = d + k`, `0 < k`, every gap the resolver
emits for it is `[d + 1, today]` — exactly `k` days and never flagged as
full history — and it is emitted whenever the symbol is in the input; a
symbol with `last_sync_date = today` is dropped from the output; a symbol
with no metadata row is emitted as full history over
`[today − lookback, today]`. -/
theorem gapFor_stale (today lb : Nat) (ms : List MetaRow) (syms : List Sym)
    (s : Sym) (hs : s ∈ syms) (m : MetaRow) (d : Date)
    (hm : metaLookup ms s = some m) (hd : m.last_sync_date = some d)
    (hdt : d < today) :
    gapFor today lb ms syms s = some ⟨s, d + 1, today, false⟩ := by
  rw [gapFor_eval today lb ms syms s hs, hm]
  simp [resolveGap, hd, hdt]

theorem gapFor_current (today lb : Nat) (ms : List MetaRow) (syms : List Sym)
    (s : Sym) (hs : s ∈ syms) (m : MetaRow)
    (hm : metaLookup ms s = some m) (hd : m.last_sync_date = some today) :
    gapFor today lb ms syms s = none := by
  rw [gapFor_eval today lb ms syms s hs, hm]
  simp [resolveGap, hd]

theorem gapFor_fullHistory (today lb : Nat) (ms : List MetaRow)
    (syms : List Sym) (s : Sym) (hs : s ∈ syms)
    (hm : metaLookup ms s = none) :
    gapFor today lb ms syms s = some ⟨s, today - lb, today, true⟩ := by
  rw [gapFor_eval today lb ms syms s hs, hm]
  simp [resolveGap]

theorem c3_sync_gap_exact (today lb k : Nat) (ms : List MetaRow)
    (syms : List Sym) (s : Sym) :
    (∀ m d, metaLookup ms s = some m → m.last_sync_date = some d →
      today = d + k → 0 < k →
      (∀ g ∈ (filter2_check_last_date today lb ms syms).1, g.symbol = s →
          g = ⟨s, d + 1, today, false⟩ ∧ g.gap_end + 1 - g.gap_start = k ∧
            g.is_full_history = false) ∧
      (s ∈ syms → (⟨s, d + 1, today, false⟩ : GapInfo) ∈
          (filter2_check_last_date today lb ms syms).1)) ∧
    (∀ m, metaLookup ms s = some m → m.last_sync_date = some today →
      ∀ g ∈ (filter2_check_last_date today lb ms syms).1, g.symbol ≠ s) ∧
    (metaLookup ms s = none →
      (∀ g ∈ (filter2_check_last_date today lb ms syms).1, g.symbol = s →
          g = ⟨s, today - lb, today, true⟩) ∧
      (s ∈ syms → (⟨s, today - lb, today, true⟩ : GapInfo) ∈
          (filter2_check_last_date today lb ms syms).1)) := by
  refine ⟨?_, ?_, ?_⟩
  · intro m d hm hd ht hk
    have hdt : d < today := ht ▸ Nat.lt_add_of_pos_right hk
    constructor
    · intro g hg hgs
      obtain ⟨s', hs', hf⟩ := List.mem_filterMap.mp hg
      have hsym := gapFor_symbol today lb ms syms s' g hf
      rw [hgs] at hsym
      subst hsym
      rw [gapFor_stale today lb ms syms s hs' m d hm hd hdt] at hf
      obtain rfl := (Option.some_inj.mp hf).symm
      refine ⟨rfl, ?_, rfl⟩
      show today + 1 - (d + 1) = k
      rw [ht]
      omega
    · intro hs
      exact List.mem_filterMap.mpr
        ⟨s, hs, gapFor_stale today lb ms syms s hs m d hm hd hdt⟩
  · intro m hm hd g hg hgs
    obtain ⟨s', hs', hf⟩ := List.mem_filterMap.mp hg
    have hsym := gapFor_symbol today lb ms syms s' g hf
    rw [hgs] at hsym
    subst hsym
    rw [gapFor_current today lb ms syms s hs' m hm hd] at hf
    exact Option.noConfusion hf
  · intro hm
    constructor
    · intro g hg hgs
      obtain ⟨s', hs', hf⟩ := List.mem_filterMap.mp hg
      have hsym := gapFor_symbol today lb ms syms s' g hf
      rw [hgs] at hsym
      subst hsym
      rw [gapFor_fullHistory today lb ms syms s hs' hm] at hf
      exact (Option.some_inj.mp hf).symm
    · intro hs
      exact List.mem_filterMap.mpr
        ⟨s, hs, gapFor_fullHistory today lb ms syms s hs hm⟩

/-- C3 witness: symbol `7` with `last_sync_date = 3` on run date `5`
yields exactly the two-day gap `[4, 5]`, not the full history. -/
theorem c3_sync_gap_exact_witness :
    (⟨7, 4, 5, false⟩ : GapInfo) ∈
      (filter2_check_last_date 5 100
        [(⟨7, 7, some 1, some 3, 10, 0⟩ : MetaRow)] [7]).1 :=
  ((c3_sync_gap_exact 5 100 2
      [(⟨7, 7, some 1, some 3, 10, 0⟩ : MetaRow)] [7] 7).1
    (⟨7, 7, some 1, some 3, 10, 0⟩ : MetaRow) 3 (by decide) (by decide)
    (by decide) (by decide)).2 (by decide)

/-- C8: resolving `N` symbols costs exactly one metadata-store read, a
single batch query covering every input symbol, regardless of `N`. -/
theorem c8_single_batch_read (today lb : Nat) (ms : List MetaRow)
    (syms : List Sym) (_hne : syms ≠ []) :
    (filter2_check_last_date today lb ms syms).2.length = 1 ∧
    ∀ s ∈ syms, ∀ read ∈ (filter2_check_last_date today lb ms syms).2,
      s ∈ read := by
  refine ⟨rfl, ?_⟩
  intro s hs read hread
  simp only [filter2_check_last_date, List.mem_singleton] at hread
  rw [hread]
  exact hs

/-- C8 witness: for the three-symbol input `[3, 1, 2]` the resolver's read
trace is one batch query containing all three symbols. -/
theorem c8_single_batch_read_witness :
    (filter2_check_last_date 5 100 [] [3, 1, 2]).2.length = 1 ∧
    ∀ s ∈ ([3, 1, 2] : List Sym),
      ∀ read ∈ (filter2_check_last_date 5 100 [] [3, 1, 2]).2, s ∈ read :=
  c8_single_batch_read 5 100 [] [3, 1, 2] (by decide)

/-- One data source of the fallback chain: its exchange name and its candle
API `fetch(symbol, first missing day, last missing day)`. -/
structure SourceDef where
  name : Sym
  fetch : Sym → Date → Date → List Candle

/-- Modelled from the spec: the multi-exchange fallback of Filter 3 —
sources are tried in fixed priority order and the first one returning a
non-empty candle series wins; later sources are never consulted, and if
none yields data the result is `none`. -/
def tryChain (chain : List SourceDef) (s : Sym) (a b : Date) :
    Option (Sym × List Candle) :=
  match chain with
  | [] => none
  | src :: rest =>
    let cs := src.fetch s a b
    if cs = [] then tryChain rest s a b else some (src.name, cs)

/-- Modelled from the spec: normalization of a raw candle into the
canonical `crypto_data` row shape, tagged with the providing exchange. -/
def normalize (s : Sym) (ex : Sym) (c : Candle) : OhlcvRow :=
  ⟨s, c.date, c.o, c.h, c.l, c.c, c.v, ex⟩

/-- Largest candle date of a fetched series (`max(date actually
persisted)`; `0` for the empty series, which never reaches persistence). -/
def maxCandleDate (cs : List Candle) : Date :=
  cs.foldr (fun c acc => max c.date acc) 0

/-- Modelled from the spec: the per-row effect of the combined metadata
statement (`WHERE symbol = s` touches only the synced symbol's row). -/
def persistTouch (s : Sym) (maxD : Date) (cnt now : Nat) (m : MetaRow) :
    MetaRow :=
  if m.symbol = s then
    { m with last_sync_date := some maxD,
             total_records := m.total_records + cnt,
             updated_at := now }
  else m

/-- Modelled from the spec: the one combined metadata statement issued
after a symbol's range completes: `last_sync_date = max(date actually
persisted)`, `total_records += persisted_count`, `updated_at = NOW()`. -/
def updateMetaAfterPersist (ms : List MetaRow) (s : Sym) (maxD : Date)
    (cnt : Nat) (now : Nat) : List MetaRow :=
  ms.map (persistTouch s maxD cnt now)

/-- Per-symbol classification in the run summary. -/
inductive SymOutcome
  | success (records : Nat)
  | failed
  | skipped
deriving DecidableEq, Repr

/-- Modelled from the spec: the fetch-and-persist step of Filter 3 for one
symbol. Resolve the missing range from the stored `last_sync_date`; if
nothing is missing the symbol is skipped; otherwise the fallback chain is
tried over exactly that range; if every source yields nothing the symbol
is recorded as failed and the store is untouched; otherwise the fetched
candles are normalized, batch-upserted, and the combined metadata update
is issued. -/
def runSymbol (today lookbackDays now : Nat) (chain : List SourceDef)
    (st : Store) (s : Sym) : Store × SymOutcome :=
  match resolveGap today lookbackDays
      ((metaLookup st.crypto_metadata s).bind (fun m => m.last_sync_date)) with
  | none => (st, .skipped)
  | some (a, b, _) =>
    match tryChain chain s a b with
    | none => (st, .failed)
    | some (ex, cs) =>
      let rows := cs.map (normalize s ex)
      (⟨upsertBatch st.crypto_data rows,
        updateMetaAfterPersist st.crypto_metadata s (maxCandleDate cs)
          rows.length now⟩,
       .success rows.length)

/-- Modelled from the spec: the per-row effect of the rank write-back
(`UPDATE crypto_metadata SET rank = r, updated_at = NOW() WHERE symbol = s
AND rank != r`, the `updated_at` refresh coming from the
`update_updated_at_column` trigger): a row is rewritten only when the
newly fetched rank differs from the stored one. -/
def applyRank (fetched : List (Sym × Nat)) (now : Nat) (m : MetaRow) :
    MetaRow :=
  match fetched.find? (fun p => p.1 = m.symbol) with
  | none => m
  | some p =>
    if m.rank = some p.2 then m
    else { m with rank := some p.2, updated_at := now }

/-- Modelled from the spec: the batch rank write-back of the ranking pass;
`crypto_data` is not touched by it. -/
def updateRanks (st : Store) (fetched : List (Sym × Nat)) (now : Nat) :
    Store :=
  ⟨st.crypto_data, st.crypto_metadata.map (applyRank fetched now)⟩

/-- The invariant "for a given `(symbol, date)` at most one source value
exists": any two rows of the table agreeing on symbol and date agree on
the exchange. -/
def oneSourcePerDay (tbl : List OhlcvRow) : Prop :=
  ∀ r1 ∈ tbl, ∀ r2 ∈ tbl, r1.symbol = r2.symbol → r1.date = r2.date →
    r1.exchange = r2.exchange

/-- Comparison of nullable sync dates: every value of the first is bounded
by a value of the second (`none` is below everything). -/
def dateLe (o1 o2 : Option Date) : Prop :=
  ∀ d1, o1 = some d1 → ∃ d2, o2 = some d2 ∧ d1 ≤ d2

/-- A successful fallback decomposes the chain: everything before the
winning source returned an empty series, and the winner's series is the
returned one, non-empty. -/
theorem tryChain_first (chain : List SourceDef) (s : Sym) (a b : Date)
    (ex : Sym) (cs : List Candle)
    (h : tryChain chain s a b = some (ex, cs)) :
    ∃ pre src post, chain = pre ++ src :: post ∧ src.name = ex ∧
      src.fetch s a b = cs ∧ cs ≠ [] ∧ ∀ x ∈ pre, x.fetch s a b = [] := by
  induction chain with
  | nil => exact absurd h (by simp [tryChain])
  | cons src rest ih =>
    by_cases he : src.fetch s a b = []
    · have h' : tryChain rest s a b = some (ex, cs) := by
        simpa [tryChain, he] using h
      obtain ⟨pre, src', post, hc, hn, hf, hne, hpre⟩ := ih h'
      refine ⟨src :: pre, src', post, by rw [hc]; rfl, hn, hf, hne, ?_⟩
      intro x hx
      rcases List.mem_cons.mp hx with rfl | hx
      · exact he
      · exact hpre x hx
    · have h' : (src.name, src.fetch s a b) = (ex, cs) := by
        have := h
        simp only [tryChain, if_neg he] at this
        exact Option.some_inj.mp this
      obtain ⟨h1, h2⟩ := Prod.mk.injEq .. |>.mp h'
      exact ⟨[], src, rest, rfl, h1, h2, h2 ▸ he,
        fun x hx => absurd hx (List.not_mem_nil x)⟩

/-- A successful fallback singles out one member of the chain. -/
theorem tryChain_spec (chain : List SourceDef) (s : Sym) (a b : Date)
    (ex : Sym) (cs : List Candle)
    (h : tryChain chain s a b = some (ex, cs)) :
    ∃ src ∈ chain, src.name = ex ∧ src.fetch s a b = cs ∧ cs ≠ [] := by
  obtain ⟨pre, src, post, hc, hn, hf, hne, _⟩ :=
    tryChain_first chain s a b ex cs h
  refine ⟨src, ?_, hn, hf, hne⟩
  rw [hc]
  exact List.mem_append_right pre (List.mem_cons_self src post)

/-- If every source of the chain has nothing for the requested range, the
fallback yields nothing. -/
theorem tryChain_empty (chain : List SourceDef) (s : Sym) (a b : Date)
    (h : ∀ src ∈ chain, src.fetch s a b = []) :
    tryChain chain s a b = none := by
  induction chain with
  | nil => rfl
  | cons src rest ih =>
    have he := h src (List.mem_cons_self src rest)
    simp only [tryChain, if_pos he]
    exact ih (fun x hx => h x (List.mem_cons_of_mem src hx))

/-- Membership after a single upsert: a row of the result was stored
before or is the upserted row. -/
theorem mem_upsertRow (tbl : List OhlcvRow) (r y : OhlcvRow)
    (hy : y ∈ upsertRow tbl r) : y ∈ tbl ∨ y = r := by
  unfold upsertRow at hy
  split at hy
  · obtain ⟨x, hx, hxy⟩ := List.mem_map.mp hy
    by_cases hk : rowKey x = rowKey r
    · rw [if_pos hk] at hxy
      exact Or.inr hxy.symm
    · rw [if_neg hk] at hxy
      exact Or.inl (hxy ▸ hx)
  · rcases List.mem_append.mp hy with h | h
    · exact Or.inl h
    · exact Or.inr (List.mem_singleton.mp h)

/-- Membership after a batch upsert: a row of the result was stored before
or belongs to the upserted batch. -/
theorem mem_upsertBatch (rs : List OhlcvRow) (tbl : List OhlcvRow)
    (y : OhlcvRow) (hy : y ∈ upsertBatch tbl rs) : y ∈ tbl ∨ y ∈ rs := by
  induction rs generalizing tbl with
  | nil => exact Or.inl hy
  | cons r rs ih =>
    have heq : upsertBatch tbl (r :: rs) = upsertBatch (upsertRow tbl r) rs :=
      rfl
    rw [heq] at hy
    rcases ih (upsertRow tbl r) hy with h | h
    · rcases mem_upsertRow tbl r y h with h' | h'
      · exact Or.inl h'
      · exact Or.inr (h' ▸ List.mem_cons_self r rs)
    · exact Or.inr (List.mem_cons_of_mem r h)

/-- Every candle date is bounded by the series maximum. -/
theorem le_maxCandleDate (cs : List Candle) (c : Candle) (hc : c ∈ cs) :
    c.date ≤ maxCandleDate cs := by
  induction cs with
  | nil => cases hc
  | cons c0 cs ih =>
    rcases List.mem_cons.mp hc with rfl | h
    · exact Nat.le_max_left _ _
    · exact Nat.le_trans (ih h) (Nat.le_max_right _ _)

/-- A found metadata row carries the looked-up symbol. -/
theorem metaLookup_symbol (ms : List MetaRow) (x : Sym) (m : MetaRow)
    (h : metaLookup ms x = some m) : m.symbol = x := by
  have := List.find?_some h
  simpa using this

/-- Metadata lookup commutes with a symbol-preserving row transformation. -/
theorem metaLookup_map (ms : List MetaRow) (f : MetaRow → MetaRow)
    (hf : ∀ m, (f m).symbol = m.symbol) (x : Sym) :
    metaLookup (ms.map f) x = (metaLookup ms x).map f := by
  induction ms with
  | nil => rfl
  | cons m ms ih =>
    unfold metaLookup at ih ⊢
    rw [List.map_cons, List.find?_cons, List.find?_cons]
    by_cases hm : m.symbol = x
    · simp [hf, hm]
    · simp only [hf, hm, decide_eq_true_eq, if_neg]
      simpa [hm] using ih

/-- A symbol whose metadata is already synced through the run date is
skipped: the store is handed back untouched. -/
theorem runSymbol_skip (today lb now : Nat) (chain : List SourceDef)
    (st : Store) (s : Sym) (m : MetaRow)
    (hm : metaLookup st.crypto_metadata s = some m)
    (hd : m.last_sync_date = some today) :
    runSymbol today lb now chain st s = (st, .skipped) := by
  unfold runSymbol
  rw [hm]
  simp [resolveGap, hd]

/-- When the gap is real but no source has data, the run records a
failure and hands the store back untouched. -/
theorem runSymbol_fail (today lb now : Nat) (chain : List SourceDef)
    (st : Store) (s : Sym) (a b : Date) (fl : Bool)
    (hgap : resolveGap today lb
        ((metaLookup st.crypto_metadata s).bind
          (fun m => m.last_sync_date)) = some (a, b, fl))
    (htc : tryChain chain s a b = none) :
    runSymbol today lb now chain st s = (st, .failed) := by
  unfold runSymbol
  rw [hgap]
  dsimp only
  rw [htc]

/-- When the gap is real and the fallback succeeds, the run upserts the
normalized rows and issues the combined metadata update. -/
theorem runSymbol_persist (today lb now : Nat) (chain : List SourceDef)
    (st : Store) (s : Sym) (a b : Date) (fl : Bool) (ex : Sym)
    (cs : List Candle)
    (hgap : resolveGap today lb
        ((metaLookup st.crypto_metadata s).bind
          (fun m => m.last_sync_date)) = some (a, b, fl))
    (htc : tryChain chain s a b = some (ex, cs)) :
    runSymbol today lb now chain st s =
      (⟨upsertBatch st.crypto_data (cs.map (normalize s ex)),
        updateMetaAfterPersist st.crypto_metadata s (maxCandleDate cs)
          (cs.map (normalize s ex)).length now⟩,
       .success (cs.map (normalize s ex)).length) := by
  unfold runSymbol
  rw [hgap]
  dsimp only
  rw [htc]

/-- C1: persistence is idempotent. Re-running the fetch-and-persist step
for a symbol whose `last_sync_date` already equals the run date hands the
store back unchanged — no OHLCV row added, `total_records` not
incremented — and, independently, upserting any row whose
`(symbol, date, exchange)` triple is already present resolves the
conflict in place: the table length and the number of rows carrying that
triple are unchanged. -/
theorem c1_persistence_idempotent (today lb now : Nat)
    (chain : List SourceDef) (st : Store) (s : Sym) (m : MetaRow)
    (hm : metaLookup st.crypto_metadata s = some m)
    (hsync : m.last_sync_date = some today) :
    (runSymbol today lb now chain st s).1 = st ∧
    (runSymbol today lb now chain st s).2 = .skipped ∧
    ∀ r : OhlcvRow,
      st.crypto_data.any (fun x => rowKey x = rowKey r) = true →
        (upsertRow st.crypto_data r).length = st.crypto_data.length ∧
        (upsertRow st.crypto_data r).countP
            (fun x => rowKey x = rowKey r) =
          st.crypto_data.countP (fun x => rowKey x = rowKey r) := by
  have h := runSymbol_skip today lb now chain st s m hm hsync
  refine ⟨by rw [h], by rw [h], ?_⟩
  intro r hr
  unfold upsertRow
  rw [if_pos hr]
  refine ⟨List.length_map _ _, ?_⟩
  rw [List.countP_map]
  apply List.countP_congr
  intro x _
  by_cases hk : rowKey x = rowKey r
  · simp [Function.comp, hk]
  · simp [Function.comp, hk]

/-- C1 witness: a store already synced through day 5 is returned
unchanged by a re-run on day 5. -/
theorem c1_persistence_idempotent_witness :
    (runSymbol 5 100 9 []
        (⟨[⟨7, 5, 1, 2, 3, 4, 5, 0⟩],
          [⟨7, 7, some 1, some 5, 3, 0⟩]⟩ : Store) 7).1 =
      (⟨[⟨7, 5, 1, 2, 3, 4, 5, 0⟩],
        [⟨7, 7, some 1, some 5, 3, 0⟩]⟩ : Store) :=
  (c1_persistence_idempotent 5 100 9 []
      (⟨[⟨7, 5, 1, 2, 3, 4, 5, 0⟩],
        [⟨7, 7, some 1, some 5, 3, 0⟩]⟩ : Store) 7
      (⟨7, 7, some 1, some 5, 3, 0⟩ : MetaRow)
      (by decide) (by decide)).1

/-- C5: per-symbol failure is atomic for metadata. If every source in the
chain yields nothing for the symbol's missing range, no OHLCV row is
written, every metadata row (in particular its `last_sync_date`) is left
unchanged, and the run summary records the symbol as failed. -/
theorem c5_per_symbol_failure_atomic (today lb now : Nat)
    (chain : List SourceDef) (st : Store) (s : Sym) (a b : Date) (fl : Bool)
    (hgap : resolveGap today lb
        ((metaLookup st.crypto_metadata s).bind
          (fun m => m.last_sync_date)) = some (a, b, fl))
    (hempty : ∀ src ∈ chain, src.fetch s a b = []) :
    (runSymbol today lb now chain st s).1.crypto_data = st.crypto_data ∧
    (runSymbol today lb now chain st s).1.crypto_metadata =
      st.crypto_metadata ∧
    (runSymbol today lb now chain st s).2 = .failed := by
  have h := runSymbol_fail today lb now chain st s a b fl hgap
    (tryChain_empty chain s a b hempty)
  rw [h]
  exact ⟨rfl, rfl, rfl⟩

/-- C5 witness: symbol 7 needs days 4-5 but the single configured source
has nothing; the run marks it failed and leaves the metadata row as it
was. -/
theorem c5_per_symbol_failure_atomic_witness :
    (runSymbol 5 100 9 [⟨0, fun _ _ _ => []⟩]
        (⟨[], [⟨7, 7, some 1, some 3, 3, 0⟩]⟩ : Store) 7).2 =
      SymOutcome.failed :=
  (c5_per_symbol_failure_atomic 5 100 9 [⟨0, fun _ _ _ => []⟩]
      (⟨[], [⟨7, 7, some 1, some 3, 3, 0⟩]⟩ : Store) 7 4 5 false
      (by decide)
      (fun src hsrc => by
        rcases List.mem_singleton.mp hsrc with rfl
        rfl)).2.2

/-- The rank write-back never changes a row's symbol. -/
theorem applyRank_symbol (fetched : List (Sym × Nat)) (now : Nat)
    (m : MetaRow) : (applyRank fetched now m).symbol = m.symbol := by
  unfold applyRank
  cases fetched.find? (fun p => p.1 = m.symbol) with
  | none => rfl
  | some q =>
    dsimp only
    by_cases hr : m.rank = some q.2
    · rw [if_pos hr]
    · rw [if_neg hr]

/-- The rank write-back never changes a row's `last_sync_date`. -/
theorem applyRank_last_sync (fetched : List (Sym × Nat)) (now : Nat)
    (m : MetaRow) :
    (applyRank fetched now m).last_sync_date = m.last_sync_date := by
  unfold applyRank
  cases fetched.find? (fun p => p.1 = m.symbol) with
  | none => rfl
  | some q =>
    dsimp only
    by_cases hr : m.rank = some q.2
    · rw [if_pos hr]
    · rw [if_neg hr]

/-- The synced-symbol metadata update never changes a row's symbol. -/
theorem persistTouch_symbol (s : Sym) (maxD : Date) (cnt now : Nat)
    (m : MetaRow) : (persistTouch s maxD cnt now m).symbol = m.symbol := by
  unfold persistTouch
  by_cases hs : m.symbol = s
  · rw [if_pos hs]
  · rw [if_neg hs]

/-- C6: a rank change is frame-bounded. The batch rank write-back leaves
`crypto_data` untouched; per metadata row it preserves `symbol`, `name`,
`last_sync_date` and `total_records`; a row whose symbol is not in the
fetched ranking, or whose stored rank equals the fetched one, is returned
exactly as it was (not even `updated_at` moves, because the SQL `WHERE`
clause excludes it); and a row whose rank differs is changed exactly in
its `rank` and `updated_at` fields. -/
theorem c6_rank_change_frame (st : Store) (fetched : List (Sym × Nat))
    (now : Nat) :
    (updateRanks st fetched now).crypto_data = st.crypto_data ∧
    (updateRanks st fetched now).crypto_metadata =
      st.crypto_metadata.map (applyRank fetched now) ∧
    ∀ m : MetaRow,
      (applyRank fetched now m).symbol = m.symbol ∧
      (applyRank fetched now m).name = m.name ∧
      (applyRank fetched now m).last_sync_date = m.last_sync_date ∧
      (applyRank fetched now m).total_records = m.total_records ∧
      (fetched.find? (fun p => p.1 = m.symbol) = none →
        applyRank fetched now m = m) ∧
      ∀ p, fetched.find? (fun q => q.1 = m.symbol) = some p →
        (m.rank = some p.2 → applyRank fetched now m = m) ∧
        (m.rank ≠ some p.2 →
          applyRank fetched now m =
            { m with rank := some p.2, updated_at := now }) := by
  refine ⟨rfl, rfl, ?_⟩
  intro m
  unfold applyRank
  cases hf : fetched.find? (fun p => p.1 = m.symbol) with
  | none =>
    exact ⟨rfl, rfl, rfl, rfl, fun _ => rfl,
      fun p hp => absurd hp (by simp [hf])⟩
  | some q =>
    dsimp only
    by_cases hr : m.rank = some q.2
    · rw [if_pos hr]
      refine ⟨rfl, rfl, rfl, rfl, fun _ => rfl, ?_⟩
      intro p hp
      obtain rfl := Option.some_inj.mp hp
      exact ⟨fun _ => rfl, fun hne => (hne hr).elim⟩
    · rw [if_neg hr]
      refine ⟨rfl, rfl, rfl, rfl, fun hnone => Option.noConfusion hnone, ?_⟩
      intro p hp
      obtain rfl := Option.some_inj.mp hp
      exact ⟨fun he => (hr he).elim, fun _ => rfl⟩

/-- C6 witness: symbol 7 moves from rank 5 to rank 4 — the row changes
exactly in `rank` and `updated_at`, keeping `last_sync_date` and
`total_records`. -/
theorem c6_rank_change_frame_witness :
    applyRank [(7, 4)] 9 (⟨7, 7, some 5, some 3, 10, 1⟩ : MetaRow) =
      (⟨7, 7, some 4, some 3, 10, 9⟩ : MetaRow) :=
  (((c6_rank_change_frame
        (⟨[], [⟨7, 7, some 5, some 3, 10, 1⟩]⟩ : Store) [(7, 4)] 9).2.2
      (⟨7, 7, some 5, some 3, 10, 1⟩ : MetaRow)).2.2.2.2.2
    (7, 4) (by decide)).2 (by decide)

/-- C4: `last_sync_date` is monotonically non-decreasing across the
subsystem's operations. Under the exchange-API contract that returned
candles lie within the requested range, the fetch-and-persist step can
only move any symbol's `last_sync_date` forward (the one mutation writes
the maximum persisted date, which exceeds the previous value), and the
rank write-back leaves every `last_sync_date` exactly as it was. -/
theorem c4_last_sync_monotone (today lb now : Nat) (chain : List SourceDef)
    (st : Store) (s : Sym)
    (hdates : ∀ src ∈ chain, ∀ a b : Date, ∀ c ∈ src.fetch s a b,
      a ≤ c.date ∧ c.date ≤ b) :
    (∀ x, dateLe
        ((metaLookup st.crypto_metadata x).bind (fun m => m.last_sync_date))
        ((metaLookup
            (runSymbol today lb now chain st s).1.crypto_metadata x).bind
          (fun m => m.last_sync_date))) ∧
    ∀ fetched nw x,
      (metaLookup (updateRanks st fetched nw).crypto_metadata x).bind
          (fun m => m.last_sync_date) =
        (metaLookup st.crypto_metadata x).bind
          (fun m => m.last_sync_date) := by
  constructor
  · intro x
    cases hgap : resolveGap today lb
        ((metaLookup st.crypto_metadata s).bind
          (fun m => m.last_sync_date)) with
    | none =>
      have h : runSymbol today lb now chain st s = (st, .skipped) := by
        unfold runSymbol
        rw [hgap]
      rw [h]
      intro d1 h1
      exact ⟨d1, h1, Nat.le_refl d1⟩
    | some t =>
      obtain ⟨a, b, fl⟩ := t
      cases htc : tryChain chain s a b with
      | none =>
        have h := runSymbol_fail today lb now chain st s a b fl hgap htc
        rw [h]
        intro d1 h1
        exact ⟨d1, h1, Nat.le_refl d1⟩
      | some p =>
        obtain ⟨ex, cs⟩ := p
        have h := runSymbol_persist today lb now chain st s a b fl ex cs
          hgap htc
        rw [h]
        intro d1 h1
        obtain ⟨m0, hm0, hlast⟩ : ∃ m0,
            metaLookup st.crypto_metadata x = some m0 ∧
              m0.last_sync_date = some d1 := by
          cases hmx : metaLookup st.crypto_metadata x with
          | none => rw [hmx] at h1; cases h1
          | some m0 => rw [hmx] at h1; exact ⟨m0, rfl, h1⟩
        have hmap : metaLookup
            (updateMetaAfterPersist st.crypto_metadata s (maxCandleDate cs)
              (cs.map (normalize s ex)).length now) x =
            (metaLookup st.crypto_metadata x).map
              (persistTouch s (maxCandleDate cs)
                (cs.map (normalize s ex)).length now) :=
          metaLookup_map st.crypto_metadata _
            (persistTouch_symbol s (maxCandleDate cs)
              (cs.map (normalize s ex)).length now) x
        dsimp only at hmap ⊢
        rw [hmap, hm0]
        by_cases hxs : m0.symbol = s
        · have hx : x = s := by
            rw [← metaLookup_symbol st.crypto_metadata x m0 hm0, hxs]
          subst hx
          rw [hm0] at hgap
          simp only [Option.some_bind, hlast] at hgap
          simp only [resolveGap] at hgap
          by_cases hlt : d1 < today
          · rw [if_pos hlt] at hgap
            have hgap' := Option.some_inj.mp hgap
            simp only [Prod.mk.injEq] at hgap'
            have ha : d1 + 1 = a := hgap'.1
            obtain ⟨src, hsrc, _, hfetch, hne⟩ :=
              tryChain_spec chain x a b ex cs htc
            obtain ⟨c, hc⟩ := List.exists_mem_of_ne_nil cs hne
            have h1c := (hdates src hsrc a b c (by rw [hfetch]; exact hc)).1
            have h2c := le_maxCandleDate cs c hc
            refine ⟨maxCandleDate cs, ?_, ?_⟩
            · simp [persistTouch, hxs]
            · have hda : d1 ≤ a := ha ▸ Nat.le_succ d1
              exact Nat.le_trans (Nat.le_trans hda h1c) h2c
          · rw [if_neg hlt] at hgap
            exact Option.noConfusion hgap
        · refine ⟨d1, ?_, Nat.le_refl d1⟩
          simp [persistTouch, hxs, hlast]
  · intro fetched nw x
    show (metaLookup (st.crypto_metadata.map (applyRank fetched nw)) x).bind
        (fun m => m.last_sync_date) = _
    rw [metaLookup_map st.crypto_metadata (applyRank fetched nw)
      (applyRank_symbol fetched nw) x]
    cases metaLookup st.crypto_metadata x with
    | none => rfl
    | some m0 => simp [applyRank_last_sync]

/-- C4 witness: a run on day 5 moves symbol 7's `last_sync_date` from 3
forward (the configured source returns one candle at the range start). -/
theorem c4_last_sync_monotone_witness :
    dateLe
      ((metaLookup
          (⟨[], [⟨7, 7, some 1, some 3, 1, 0⟩]⟩ : Store).crypto_metadata
          7).bind (fun m => m.last_sync_date))
      ((metaLookup
          (runSymbol 5 100 9
            [⟨1, fun _ a b => if a ≤ b then [⟨a, 1, 1, 1, 1, 1⟩] else []⟩]
            (⟨[], [⟨7, 7, some 1, some 3, 1, 0⟩]⟩ : Store)
            7).1.crypto_metadata 7).bind (fun m => m.last_sync_date)) :=
  (c4_last_sync_monotone 5 100 9
      [⟨1, fun _ a b => if a ≤ b then [⟨a, 1, 1, 1, 1, 1⟩] else []⟩]
      (⟨[], [⟨7, 7, some 1, some 3, 1, 0⟩]⟩ : Store) 7
      (fun src hsrc a b c hc => by
        rcases List.mem_singleton.mp hsrc with rfl
        dsimp at hc
        by_cases hab : a ≤ b
        · rw [if_pos hab] at hc
          rcases List.mem_singleton.mp hc with rfl
          exact ⟨Nat.le_refl a, hab⟩
        · rw [if_neg hab] at hc
          cases hc)).1 7

/-- C2: sources are never mixed for one symbol. In a single run the
fallback chain decomposes as "every source before the winner returned an
empty series and the winner's non-empty series is used"; every OHLCV row
newly persisted for the symbol carries the winner as its source; every
fetched day lies strictly after every already-stored day of the symbol
(a day persisted under source X is never re-fetched from source Y); and
the at-most-one-source-per-`(symbol, date)` invariant is preserved. -/
theorem c2_sources_never_mixed (today lb now : Nat) (chain : List SourceDef)
    (st : Store) (s : Sym) (m : MetaRow) (D : Date)
    (hm : metaLookup st.crypto_metadata s = some m)
    (hD : m.last_sync_date = some D)
    (hDlt : D < today)
    (hdates : ∀ src ∈ chain, ∀ c ∈ src.fetch s (D + 1) today,
      D + 1 ≤ c.date ∧ c.date ≤ today)
    (hstore : ∀ r ∈ st.crypto_data, r.symbol = s → r.date ≤ D)
    (hone : oneSourcePerDay st.crypto_data) :
    (∀ ex cs, tryChain chain s (D + 1) today = some (ex, cs) →
      (∃ pre src post, chain = pre ++ src :: post ∧ src.name = ex ∧
        src.fetch s (D + 1) today = cs ∧ cs ≠ [] ∧
        ∀ x ∈ pre, x.fetch s (D + 1) today = []) ∧
      (∀ r ∈ (runSymbol today lb now chain st s).1.crypto_data,
        r ∉ st.crypto_data → r.symbol = s ∧ r.exchange = ex) ∧
      (∀ c ∈ cs, ∀ r ∈ st.crypto_data, r.symbol = s → r.date < c.date)) ∧
    oneSourcePerDay (runSymbol today lb now chain st s).1.crypto_data := by
  have hgap : resolveGap today lb
      ((metaLookup st.crypto_metadata s).bind
        (fun m => m.last_sync_date)) = some (D + 1, today, false) := by
    rw [hm]
    simp [resolveGap, hD, hDlt]
  constructor
  · intro ex cs htc
    have h := runSymbol_persist today lb now chain st s (D + 1) today false
      ex cs hgap htc
    refine ⟨tryChain_first chain s (D + 1) today ex cs htc, ?_, ?_⟩
    · rw [h]
      dsimp only
      intro r hr hnot
      rcases mem_upsertBatch _ _ _ hr with hold | hnew
      · exact absurd hold hnot
      · obtain ⟨c, _, hre⟩ := List.mem_map.mp hnew
        refine ⟨?_, ?_⟩
        · rw [← hre]; rfl
        · rw [← hre]; rfl
    · intro c hc r hr hrs
      obtain ⟨src, hsrc, _, hfetch, _⟩ :=
        tryChain_spec chain s (D + 1) today ex cs htc
      have h1c := (hdates src hsrc c (by rw [hfetch]; exact hc)).1
      have hle := hstore r hr hrs
      have hlt : D < c.date := h1c
      exact Nat.lt_of_le_of_lt hle hlt
  · cases htc : tryChain chain s (D + 1) today with
    | none =>
      have h := runSymbol_fail today lb now chain st s (D + 1) today false
        hgap htc
      rw [h]
      exact hone
    | some p =>
      obtain ⟨ex, cs⟩ := p
      have h := runSymbol_persist today lb now chain st s (D + 1) today false
        ex cs hgap htc
      rw [h]
      dsimp only
      obtain ⟨src, hsrc, _, hfetch, _⟩ :=
        tryChain_spec chain s (D + 1) today ex cs htc
      intro r1 h1 r2 h2 hsym hdate
      rcases mem_upsertBatch _ _ _ h1 with ho1 | hn1 <;>
        rcases mem_upsertBatch _ _ _ h2 with ho2 | hn2
      · exact hone r1 ho1 r2 ho2 hsym hdate
      · obtain ⟨c2, hc2, hre2⟩ := List.mem_map.mp hn2
        have hr2s : r2.symbol = s := by rw [← hre2]; rfl
        have hr1s : r1.symbol = s := by rw [hsym, hr2s]
        have hle := hstore r1 ho1 hr1s
        have hge := (hdates src hsrc c2 (by rw [hfetch]; exact hc2)).1
        have hd2 : r2.date = c2.date := by rw [← hre2]; rfl
        have hlt : D < r1.date := by
          rw [hdate, hd2]
          exact hge
        exact absurd hle (Nat.not_le_of_lt hlt)
      · obtain ⟨c1, hc1, hre1⟩ := List.mem_map.mp hn1
        have hr1s : r1.symbol = s := by rw [← hre1]; rfl
        have hr2s : r2.symbol = s := by rw [← hsym, hr1s]
        have hle := hstore r2 ho2 hr2s
        have hge := (hdates src hsrc c1 (by rw [hfetch]; exact hc1)).1
        have hd1 : r1.date = c1.date := by rw [← hre1]; rfl
        have hlt : D < r2.date := by
          rw [← hdate, hd1]
          exact hge
        exact absurd hle (Nat.not_le_of_lt hlt)
      · obtain ⟨c1, _, hre1⟩ := List.mem_map.mp hn1
        obtain ⟨c2, _, hre2⟩ := List.mem_map.mp hn2
        rw [← hre1, ← hre2]
        rfl

/-- C2 witness: source 0 has no data for symbol 7, source 1 does; the
resulting table holds rows from a single source per `(symbol, date)`. -/
theorem c2_sources_never_mixed_witness :
    oneSourcePerDay
      ((runSymbol 5 100 9
          [⟨0, fun _ _ _ => []⟩, ⟨1, fun _ a _ => [⟨a, 1, 1, 1, 1, 1⟩]⟩]
          (⟨[], [⟨7, 7, some 1, some 3, 1, 0⟩]⟩ : Store)
          7).1.crypto_data) :=
  (c2_sources_never_mixed 5 100 9
      [⟨0, fun _ _ _ => []⟩, ⟨1, fun _ a _ => [⟨a, 1, 1, 1, 1, 1⟩]⟩]
      (⟨[], [⟨7, 7, some 1, some 3, 1, 0⟩]⟩ : Store) 7
      (⟨7, 7, some 1, some 3, 1, 0⟩ : MetaRow) 3
      (by decide) (by decide) (by decide)
      (by
        intro src hsrc c hc
        rcases List.mem_cons.mp hsrc with rfl | hsrc
        · cases hc
        · rcases List.mem_singleton.mp hsrc with rfl
          rcases List.mem_singleton.mp hc with rfl
          exact ⟨by decide, by decide⟩)
      (fun r hr => absurd hr (List.not_mem_nil r))
      (fun r1 h1 => absurd h1 (List.not_mem_nil r1))).2

/-- One raw candidate from the ranking provider (one entry of a CoinGecko
markets page): current price (nullable, `0` only for delisted assets),
24-hour volume, market cap and rank (nullable). -/
structure Candidate where
  symbol : Sym
  name : Sym
  current_price : Option Nat
  volume_24h : Nat
  market_cap : Nat
  rank : Option Nat
deriving DecidableEq, Repr

/-- The rank used for collapsing and ordering; validated candidates always
carry `some` rank, so the default is never reached on them. -/
def rankVal (c : Candidate) : Nat := c.rank.getD 0

/-- Modelled from the spec: the validation predicate of Filter 1 — reject
a candidate if its price is missing or zero (delisted signal), its
`volume_24h` is below the configured floor, its `market_cap` is below the
configured floor, or its `rank` is absent. -/
def validCandidate (minVol minCap : Nat) (c : Candidate) : Bool :=
  match c.current_price, c.rank with
  | some p, some _ =>
    decide (p ≠ 0) && decide (minVol ≤ c.volume_24h) &&
      decide (minCap ≤ c.market_cap)
  | _, _ => false

/-- Modelled from the spec: duplicate symbols are collapsed, keeping the
occurrence with the best (lowest) rank (first occurrence on ties). -/
def collapse (l : List Candidate) : List Candidate :=
  match l with
  | [] => []
  | c :: rest =>
    if rest.any (fun d => d.symbol == c.symbol &&
        decide (rankVal d < rankVal c)) then
      collapse rest
    else
      c :: collapse (rest.filter (fun d => d.symbol != c.symbol))
termination_by l.length
decreasing_by
  · simp
  · have := List.length_filter_le (fun d => d.symbol != c.symbol) rest
    simp
    omega

/-- Ordering of candidates by ascending rank. -/
def rankLe (c d : Candidate) : Prop := rankVal c ≤ rankVal d

instance : DecidableRel rankLe := fun c d => Nat.decLe (rankVal c) (rankVal d)

instance : IsTotal Candidate rankLe := ⟨fun a b => Nat.le_total (rankVal a) (rankVal b)⟩

instance : IsTrans Candidate rankLe := ⟨fun _ _ _ h1 h2 => Nat.le_trans h1 h2⟩

/-- Modelled from the spec: Filter 1 (symbol acquisition) applied to the
already-fetched candidate pages: validate each candidate, collapse
duplicate symbols to the best-ranked occurrence, sort ascending by rank,
cap at the target count. -/
def filter1_get_top_symbols (minVol minCap topN : Nat)
    (cands : List Candidate) : List Candidate :=
  ((collapse (cands.filter (validCandidate minVol minCap))).insertionSort
    rankLe).take topN

/-- Collapsing returns a subset of the input occurrences. -/
theorem collapse_subset (l : List Candidate) : ∀ x ∈ collapse l, x ∈ l := by
  induction l using collapse.induct with
  | case1 =>
    intro x hx
    simp only [collapse] at hx
    cases hx
  | case2 c rest hany ih =>
    intro x hx
    rw [collapse, if_pos hany] at hx
    exact List.mem_cons_of_mem c (ih x hx)
  | case3 c rest hany ih =>
    intro x hx
    rw [collapse, if_neg hany] at hx
    rcases List.mem_cons.mp hx with rfl | hx
    · exact List.mem_cons_self x rest
    · exact List.mem_cons_of_mem c (List.mem_of_mem_filter (ih x hx))

/-- After collapsing, no two retained candidates share a symbol. -/
theorem collapse_nodup_symbols (l : List Candidate) :
    ((collapse l).map Candidate.symbol).Nodup := by
  induction l using collapse.induct with
  | case1 => simp [collapse]
  | case2 c rest hany ih => rw [collapse, if_pos hany]; exact ih
  | case3 c rest hany ih =>
    rw [collapse, if_neg hany, List.map_cons]
    refine List.nodup_cons.mpr ⟨?_, ih⟩
    intro hc
    obtain ⟨x, hx, hxs⟩ := List.mem_map.mp hc
    have hxf := collapse_subset _ x hx
    have hpred := (List.mem_filter.mp hxf).2
    rw [hxs] at hpred
    simp at hpred

/-- Each retained candidate has minimal rank among all input occurrences
of its symbol. -/
theorem collapse_min_rank (l : List Candidate) :
    ∀ x ∈ collapse l, ∀ d ∈ l, d.symbol = x.symbol →
      rankVal x ≤ rankVal d := by
  induction l using collapse.induct with
  | case1 =>
    intro x hx
    simp only [collapse] at hx
    cases hx
  | case2 c rest hany ih =>
    intro x hx d hd hds
    rw [collapse, if_pos hany] at hx
    rcases List.mem_cons.mp hd with rfl | hd
    · obtain ⟨w, hw, hp⟩ := List.any_eq_true.mp hany
      have hw2 : w.symbol = d.symbol ∧ rankVal w < rankVal d := by
        simpa using hp
      have hxw := ih x hx w hw (by rw [hw2.1, hds])
      exact Nat.le_trans hxw (Nat.le_of_lt hw2.2)
    · exact ih x hx d hd hds
  | case3 c rest hany ih =>
    intro x hx d hd hds
    rw [collapse, if_neg hany] at hx
    have hno : ∀ w ∈ rest, w.symbol = c.symbol →
        ¬ rankVal w < rankVal c := by
      intro w hw hws hlt
      exact hany (List.any_eq_true.mpr ⟨w, hw, by simp [hws, hlt]⟩)
    rcases List.mem_cons.mp hx with rfl | hx
    · rcases List.mem_cons.mp hd with rfl | hd
      · exact Nat.le_refl _
      · exact Nat.le_of_not_lt (hno d hd hds)
    · have hxf := collapse_subset _ x hx
      have hxsym : x.symbol ≠ c.symbol := by
        have hpred := (List.mem_filter.mp hxf).2
        simpa using hpred
      rcases List.mem_cons.mp hd with rfl | hd
      · exact absurd hds.symm hxsym
      · have hdc : d.symbol ≠ c.symbol := by
          rw [hds]
          exact hxsym
        have hdf : d ∈ rest.filter (fun d => d.symbol != c.symbol) := by
          refine List.mem_filter.mpr ⟨hd, ?_⟩
          simpa using hdc
        exact ih x hx d hdf hds

/-- Every input occurrence's symbol survives collapsing. -/
theorem collapse_covers (l : List Candidate) :
    ∀ d ∈ l, ∃ x ∈ collapse l, x.symbol = d.symbol := by
  induction l using collapse.induct with
  | case1 =>
    intro d hd
    cases hd
  | case2 c rest hany ih =>
    intro d hd
    rw [collapse, if_pos hany]
    rcases List.mem_cons.mp hd with rfl | hd
    · obtain ⟨w, hw, hp⟩ := List.any_eq_true.mp hany
      have hw2 : w.symbol = d.symbol ∧ rankVal w < rankVal d := by
        simpa using hp
      obtain ⟨x, hx, hxs⟩ := ih w hw
      exact ⟨x, hx, by rw [hxs, hw2.1]⟩
    · exact ih d hd
  | case3 c rest hany ih =>
    intro d hd
    rw [collapse, if_neg hany]
    rcases List.mem_cons.mp hd with rfl | hd
    · exact ⟨d, List.mem_cons_self d _, rfl⟩
    · by_cases hds : d.symbol = c.symbol
      · exact ⟨c, List.mem_cons_self c _, hds.symm⟩
      · have hdf : d ∈ rest.filter (fun d => d.symbol != c.symbol) := by
          refine List.mem_filter.mpr ⟨hd, ?_⟩
          simpa using hds
        obtain ⟨x, hx, hxs⟩ := ih d hdf
        exact ⟨x, List.mem_cons_of_mem c hx, hxs⟩

/-- C7: the Symbol Acquisition Filter's output consists exactly of input
candidates passing the validation predicate; it is sorted ascending by
rank; no symbol appears twice; it is capped at the target count; each
retained candidate has the lowest rank among the valid occurrences of its
symbol; and (before the cap is applied) every valid input symbol is
represented. -/
theorem c7_filter1_characterization (minVol minCap topN : Nat)
    (cands : List Candidate) :
    (∀ x ∈ filter1_get_top_symbols minVol minCap topN cands,
      x ∈ cands ∧ validCandidate minVol minCap x = true) ∧
    List.Sorted rankLe (filter1_get_top_symbols minVol minCap topN cands) ∧
    ((filter1_get_top_symbols minVol minCap topN cands).map
        Candidate.symbol).Nodup ∧
    (filter1_get_top_symbols minVol minCap topN cands).length ≤ topN ∧
    (∀ x ∈ filter1_get_top_symbols minVol minCap topN cands,
      ∀ d ∈ cands, validCandidate minVol minCap d = true →
        d.symbol = x.symbol → rankVal x ≤ rankVal d) ∧
    (∀ d ∈ cands, validCandidate minVol minCap d = true →
      ∃ x ∈ (collapse (cands.filter
          (validCandidate minVol minCap))).insertionSort rankLe,
        x.symbol = d.symbol) := by
  refine ⟨?_, ?_, ?_, ?_, ?_, ?_⟩
  · intro x hx
    have hx1 : x ∈ (collapse (cands.filter
        (validCandidate minVol minCap))).insertionSort rankLe :=
      List.take_subset _ _ hx
    have hx2 := (List.mem_insertionSort rankLe).mp hx1
    have hx3 := collapse_subset _ x hx2
    exact ⟨(List.mem_filter.mp hx3).1, (List.mem_filter.mp hx3).2⟩
  · exact List.Pairwise.sublist (List.take_sublist _ _)
      (List.sorted_insertionSort rankLe _)
  · have h1 := collapse_nodup_symbols
      (cands.filter (validCandidate minVol minCap))
    have hperm := List.perm_insertionSort rankLe
      (collapse (cands.filter (validCandidate minVol minCap)))
    have h2 := ((hperm.map Candidate.symbol).symm).nodup h1
    show ((((collapse (cands.filter
        (validCandidate minVol minCap))).insertionSort rankLe).take
          topN).map Candidate.symbol).Nodup
    rw [List.map_take]
    exact List.Nodup.sublist (List.take_sublist _ _) h2
  · exact List.length_take_le _ _
  · intro x hx d hd hdv hds
    have hx2 := (List.mem_insertionSort rankLe).mp (List.take_subset _ _ hx)
    exact collapse_min_rank _ x hx2 d (List.mem_filter.mpr ⟨hd, hdv⟩) hds
  · intro d hd hdv
    obtain ⟨x, hx, hxs⟩ := collapse_covers _ d (List.mem_filter.mpr ⟨hd, hdv⟩)
    exact ⟨x, (List.mem_insertionSort rankLe).mpr hx, hxs⟩

/-- C7 witness: with floors 50 / 500 and two occurrences of symbol 1, the
valid occurrence keeps the symbol represented in the collapsed, sorted
candidate list. -/
theorem c7_filter1_characterization_witness :
    ∃ x ∈ (collapse (([⟨1, 1, some 10, 100, 1000, some 2⟩,
        ⟨1, 1, some 10, 100, 1000, some 1⟩,
        ⟨2, 2, none, 100, 1000, some 3⟩] : List Candidate).filter
          (validCandidate 50 500))).insertionSort rankLe,
      x.symbol = 1 :=
  (c7_filter1_characterization 50 500 10
      [⟨1, 1, some 10, 100, 1000, some 2⟩,
       ⟨1, 1, some 10, 100, 1000, some 1⟩,
       ⟨2, 2, none, 100, 1000, some 3⟩]).2.2.2.2.2
    ⟨1, 1, some 10, 100, 1000, some 2⟩ (by decide) (by decide)

/-!
The GET handler of `api/coins/[symbol]/route.js`, embedded from its
JavaScript source. The JS calendar subtractions (`setDate(-7)`,
`setMonth(-1)`, `setFullYear(-1 or -5)`) are modelled as fixed day offsets on
day-number dates; the claims under study depend only on the filter being
`latest − offset` with the offset anchored at the latest *stored* date.
The handler never reads a clock: no current date occurs in the model, as
none occurs in the source. A store query that throws is modelled by the
`Except.error` state of the database value.
-/

/-- The interval query parameter; an absent or unknown value behaves like
`max` (the JS `default` branch). -/
inductive Interval
  | week
  | month
  | year
  | fiveYears
  | max
deriving DecidableEq, Repr

/-- The day-offset subtracted from the latest date per interval
(`none` = no date filter, the `max` branch). -/
def intervalOffsetDays : Interval → Option Nat
  | .week => some 7
  | .month => some 30
  | .year => some 365
  | .fiveYears => some 1825
  | .max => none

/-- The per-interval row limit of the descending query (route.js lines
60-77). -/
def intervalLimit : Interval → Nat
  | .week => 50
  | .month => 100
  | .year => 500
  | .fiveYears => 3000
  | .max => 10000

/-- The row predicate of the store query: symbol equality plus the
optional `gte('date', dateFilter)` condition. -/
def rowMatch (s : Sym) (flt : Option Date) (r : OhlcvRow) : Bool :=
  (r.symbol == s) &&
    (match flt with
     | none => true
     | some d0 => decide (d0 ≤ r.date))

/-- Newest-first ordering of rows (`order('date', ascending: false)`). -/
def dateGe (r1 r2 : OhlcvRow) : Prop := r2.date ≤ r1.date

instance : DecidableRel dateGe := fun r1 r2 => Nat.decLe r2.date r1.date

instance : IsTotal OhlcvRow dateGe := ⟨fun a b => Nat.le_total b.date a.date⟩

instance : IsTrans OhlcvRow dateGe := ⟨fun _ _ _ h1 h2 => Nat.le_trans h2 h1⟩

/-- The descending store query: rows of the symbol passing the optional
date filter, newest first, truncated to the limit. -/
def queryDesc (tbl : List OhlcvRow) (s : Sym) (flt : Option Date)
    (lim : Nat) : List OhlcvRow :=
  ((tbl.filter (rowMatch s flt)).insertionSort dateGe).take lim

/-- The message of the empty-symbol early return. -/
def noDataMessage : String := "No data available for this symbol"

/-- The JSON body shape produced by the route (absent fields are `none`;
`NextResponse.json` defaults the status to 200). -/
structure ApiResponse where
  status : Nat
  data : List OhlcvRow
  message : Option String
  latestDate : Option Date
  totalPoints : Option Nat
  error : Option String
deriving DecidableEq, Repr

/-- The body of the route's `try` block: latest-date probe, early return
on no data, interval window computed backwards FROM the latest stored
date, descending query with per-interval limit, reversed into
chronological order. -/
def routeGETok (tbl : List OhlcvRow) (s : Sym) (i : Interval) :
    ApiResponse :=
  match queryDesc tbl s none 1 with
  | [] => ⟨200, [], some noDataMessage, none, none, none⟩
  | latestRow :: _ =>
    let latest := latestRow.date
    let flt := (intervalOffsetDays i).map (fun off => latest - off)
    let data := (queryDesc tbl s flt (intervalLimit i)).reverse
    ⟨200, data, none, some latest, some data.length, none⟩

/-- The GET handler: a throwing store query is caught and produces the
500 response with an empty data list; otherwise the `try` body runs. -/
def routeGET (db : Except String (List OhlcvRow)) (s : Sym) (i : Interval) :
    ApiResponse :=
  match db with
  | .error e => ⟨500, [], none, none, none, some e⟩
  | .ok tbl => routeGETok tbl s i

/-- The latest stored date of a symbol (0 when the symbol has no rows). -/
def maxDateFor (tbl : List OhlcvRow) (s : Sym) : Date :=
  ((tbl.filter (rowMatch s none)).map (fun r => r.date)).foldr max 0

/-- Every element of a list of naturals is bounded by its `foldr max 0`. -/
theorem le_foldr_max (ds : List Nat) (d : Nat) (hd : d ∈ ds) :
    d ≤ ds.foldr max 0 := by
  induction ds with
  | nil => cases hd
  | cons d0 ds ih =>
    rcases List.mem_cons.mp hd with rfl | h
    · exact Nat.le_max_left _ _
    · exact Nat.le_trans (ih h) (Nat.le_max_right _ _)

/-- The `foldr max 0` of a non-empty list of naturals is attained. -/
theorem foldr_max_mem (ds : List Nat) (hne : ds ≠ []) :
    ds.foldr max 0 ∈ ds := by
  induction ds with
  | nil => exact absurd rfl hne
  | cons d0 ds ih =>
    cases ds with
    | nil =>
      simp [Nat.max_zero]
    | cons d1 ds1 =>
      rcases Nat.le_total ((d1 :: ds1).foldr max 0) d0 with h | h
      · have : (d0 :: d1 :: ds1).foldr max 0 = d0 := by
          simp only [List.foldr_cons]
          exact Nat.max_eq_left h
        rw [this]
        exact List.mem_cons_self _ _
      · have : (d0 :: d1 :: ds1).foldr max 0 = (d1 :: ds1).foldr max 0 := by
          simp only [List.foldr_cons]
          exact Nat.max_eq_right h
        rw [this]
        exact List.mem_cons_of_mem d0 (ih (by simp))

/-- Rows of the descending query come from the table and satisfy the
query predicate. -/
theorem queryDesc_mem (tbl : List OhlcvRow) (s : Sym) (flt : Option Date)
    (lim : Nat) (r : OhlcvRow) (h : r ∈ queryDesc tbl s flt lim) :
    r ∈ tbl ∧ rowMatch s flt r = true := by
  have h1 : r ∈ (tbl.filter (rowMatch s flt)).insertionSort dateGe :=
    List.take_subset _ _ h
  have h2 := (List.mem_insertionSort dateGe).mp h1
  exact ⟨(List.mem_filter.mp h2).1, (List.mem_filter.mp h2).2⟩

/-- The descending query is sorted newest first. -/
theorem queryDesc_sorted (tbl : List OhlcvRow) (s : Sym)
    (flt : Option Date) (lim : Nat) :
    (queryDesc tbl s flt lim).Pairwise dateGe :=
  List.Pairwise.sublist (List.take_sublist _ _)
    (List.sorted_insertionSort dateGe _)

/-- A `take` beginning with `a` forces the underlying list to begin with
`a`. -/
theorem take_eq_cons (l : List OhlcvRow) (n : Nat) (a : OhlcvRow)
    (rest : List OhlcvRow) (h : l.take n = a :: rest) :
    ∃ t, l = a :: t := by
  cases l with
  | nil => simp at h
  | cons x xs =>
    cases n with
    | zero => simp at h
    | succ k =>
      rw [List.take_succ_cons] at h
      injection h with h1 h2
      exact ⟨xs, by rw [h1]⟩

/-- The head of a non-empty descending query result bounds the date of
every row satisfying the query predicate. -/
theorem queryDesc_head_max (tbl : List OhlcvRow) (s : Sym)
    (flt : Option Date) (lim : Nat) (r0 : OhlcvRow) (rest : List OhlcvRow)
    (h : queryDesc tbl s flt lim = r0 :: rest) :
    ∀ r ∈ tbl, rowMatch s flt r = true → r.date ≤ r0.date := by
  obtain ⟨t, hsort⟩ := take_eq_cons _ _ _ _ h
  intro r hr hm
  have hrmem : r ∈ (tbl.filter (rowMatch s flt)).insertionSort dateGe :=
    (List.mem_insertionSort dateGe).mpr (List.mem_filter.mpr ⟨hr, hm⟩)
  rw [hsort] at hrmem
  rcases List.mem_cons.mp hrmem with rfl | hrmem
  · exact Nat.le_refl _
  · have hsorted := List.sorted_insertionSort dateGe
      (tbl.filter (rowMatch s flt))
    rw [hsort] at hsorted
    exact List.rel_of_sorted_cons hsorted r hrmem

/-- A row satisfying the query predicate keeps the query result
non-empty whenever the limit is positive. -/
theorem queryDesc_ne_nil (tbl : List OhlcvRow) (s : Sym)
    (flt : Option Date) (lim : Nat) (hl : 1 ≤ lim) (r : OhlcvRow)
    (hr : r ∈ tbl) (hm : rowMatch s flt r = true) :
    queryDesc tbl s flt lim ≠ [] := by
  have hmem : r ∈ (tbl.filter (rowMatch s flt)).insertionSort dateGe :=
    (List.mem_insertionSort dateGe).mpr (List.mem_filter.mpr ⟨hr, hm⟩)
  cases hcase : (tbl.filter (rowMatch s flt)).insertionSort dateGe with
  | nil => rw [hcase] at hmem; cases hmem
  | cons a t =>
    cases lim with
    | zero => exact absurd hl (Nat.not_succ_le_zero 0)
    | succ k =>
      show queryDesc tbl s flt (k + 1) ≠ []
      unfold queryDesc
      rw [hcase, List.take_succ_cons]
      simp

/-- Every interval limit is positive. -/
theorem intervalLimit_pos (i : Interval) : 1 ≤ intervalLimit i := by
  cases i <;> simp [intervalLimit]

/-- C9: for a symbol with at least one stored row, the GET handler
answers 200 with the window anchored at the symbol's most recent stored
date (`latestDate` is that date — no current date enters the
computation): the data list is non-empty, ends exactly at the latest
stored date, is ascending chronologically, and contains only rows of the
symbol lying between `latest − offset` and `latest`. -/
theorem c9_window_anchored_at_latest (tbl : List OhlcvRow) (s : Sym)
    (i : Interval) (hs : ∃ r ∈ tbl, r.symbol = s) :
    (routeGET (.ok tbl) s i).status = 200 ∧
    (routeGET (.ok tbl) s i).latestDate = some (maxDateFor tbl s) ∧
    (routeGET (.ok tbl) s i).data ≠ [] ∧
    ((routeGET (.ok tbl) s i).data.getLast?.map (fun r => r.date) =
      some (maxDateFor tbl s)) ∧
    (routeGET (.ok tbl) s i).data.Pairwise
      (fun r1 r2 => r1.date ≤ r2.date) ∧
    ∀ r ∈ (routeGET (.ok tbl) s i).data,
      r.symbol = s ∧ r.date ≤ maxDateFor tbl s ∧
      ∀ off, intervalOffsetDays i = some off →
        maxDateFor tbl s - off ≤ r.date := by
  obtain ⟨rw0, hrw0, hrs0⟩ := hs
  have hm0 : rowMatch s none rw0 = true := by
    simp [rowMatch, hrs0]
  have hne1 := queryDesc_ne_nil tbl s none 1 (Nat.le_refl 1) rw0 hrw0 hm0
  cases hq1 : queryDesc tbl s none 1 with
  | nil => exact absurd hq1 hne1
  | cons r0 rest0 =>
    have hr0mem := queryDesc_mem tbl s none 1 r0
      (by rw [hq1]; exact List.mem_cons_self _ _)
    have hr0le : r0.date ≤ maxDateFor tbl s :=
      le_foldr_max _ _ (List.mem_map.mpr
        ⟨r0, List.mem_filter.mpr ⟨hr0mem.1, hr0mem.2⟩, rfl⟩)
    have hmax_mem : maxDateFor tbl s ∈
        (tbl.filter (rowMatch s none)).map (fun r => r.date) := by
      apply foldr_max_mem
      intro hnil2
      have hmem := List.mem_filter.mpr ⟨hrw0, hm0⟩
      rw [List.map_eq_nil_iff.mp hnil2] at hmem
      cases hmem
    obtain ⟨rmax, hrmaxf, hrmaxd⟩ := List.mem_map.mp hmax_mem
    have hr0ge : maxDateFor tbl s ≤ r0.date := by
      rw [← hrmaxd]
      exact queryDesc_head_max tbl s none 1 r0 rest0 hq1 rmax
        (List.mem_filter.mp hrmaxf).1 (List.mem_filter.mp hrmaxf).2
    have hr0d : r0.date = maxDateFor tbl s := Nat.le_antisymm hr0le hr0ge
    have hok : routeGET (.ok tbl) s i =
        ⟨200,
          (queryDesc tbl s
            ((intervalOffsetDays i).map (fun off => r0.date - off))
            (intervalLimit i)).reverse,
          none, some r0.date,
          some (queryDesc tbl s
            ((intervalOffsetDays i).map (fun off => r0.date - off))
            (intervalLimit i)).reverse.length,
          none⟩ := by
      show routeGETok tbl s i = _
      unfold routeGETok
      rw [hq1]
    have hmrmax : rowMatch s
        ((intervalOffsetDays i).map (fun off => r0.date - off)) rmax =
        true := by
      have h1 := (List.mem_filter.mp hrmaxf).2
      unfold rowMatch at h1 ⊢
      rw [Bool.and_eq_true] at h1
      rw [Bool.and_eq_true]
      refine ⟨h1.1, ?_⟩
      cases hoff : intervalOffsetDays i with
      | none => rfl
      | some off =>
        show decide (r0.date - off ≤ rmax.date) = true
        rw [hrmaxd, ← hr0d]
        exact decide_eq_true (Nat.sub_le _ _)
    have hq2ne := queryDesc_ne_nil tbl s
      ((intervalOffsetDays i).map (fun off => r0.date - off))
      (intervalLimit i) (intervalLimit_pos i) rmax
      (List.mem_filter.mp hrmaxf).1 hmrmax
    cases hq2 : queryDesc tbl s
        ((intervalOffsetDays i).map (fun off => r0.date - off))
        (intervalLimit i) with
    | nil => exact absurd hq2 hq2ne
    | cons h2 t2 =>
      have hrowmem : ∀ r, r ∈ h2 :: t2 →
          r ∈ tbl ∧ rowMatch s
            ((intervalOffsetDays i).map (fun off => r0.date - off)) r =
            true := by
        intro r hr
        exact queryDesc_mem tbl s _ _ r (by rw [hq2]; exact hr)
      have hsymdate : ∀ r, r ∈ h2 :: t2 →
          r.symbol = s ∧ r.date ≤ maxDateFor tbl s ∧
          ∀ off, intervalOffsetDays i = some off →
            maxDateFor tbl s - off ≤ r.date := by
        intro r hr
        obtain ⟨hrt, hrm⟩ := hrowmem r hr
        unfold rowMatch at hrm
        rw [Bool.and_eq_true] at hrm
        have hrs : r.symbol = s := by simpa using hrm.1
        have hrm0 : rowMatch s none r = true := by
          simp [rowMatch, hrs]
        have hrle : r.date ≤ maxDateFor tbl s :=
          le_foldr_max _ _ (List.mem_map.mpr
            ⟨r, List.mem_filter.mpr ⟨hrt, hrm0⟩, rfl⟩)
        refine ⟨hrs, hrle, ?_⟩
        intro off hoff
        have h2f := hrm.2
        rw [hoff] at h2f
        have := of_decide_eq_true h2f
        rw [hr0d] at this
        exact this
      have hh2d : h2.date = maxDateFor tbl s := by
        have hle := (hsymdate h2 (List.mem_cons_self _ _)).2.1
        have hge : maxDateFor tbl s ≤ h2.date := by
          rw [← hrmaxd]
          exact queryDesc_head_max tbl s _ _ h2 t2 hq2 rmax
            (List.mem_filter.mp hrmaxf).1 hmrmax
        exact Nat.le_antisymm hle hge
      rw [hok, hq2]
      refine ⟨rfl, by rw [hr0d], by simp, ?_, ?_, ?_⟩
      · rw [List.getLast?_reverse]
        show some h2.date = some (maxDateFor tbl s)
        rw [hh2d]
      · refine List.pairwise_reverse.mpr ?_
        have hsorted : (h2 :: t2).Pairwise dateGe := by
          rw [← hq2]
          exact queryDesc_sorted tbl s _ _
        exact hsorted
      · intro r hr
        exact hsymdate r (List.mem_reverse.mp hr)

/-- C9 witness: symbol 7 has rows on days 3 and 5; the week window of the
route ends exactly at day 5, the latest stored day. -/
theorem c9_window_anchored_at_latest_witness :
    ((routeGET (Except.ok
        [⟨7, 3, 1, 1, 1, 1, 1, 1⟩, ⟨7, 5, 1, 1, 1, 1, 1, 1⟩])
        7 Interval.week).data.getLast?.map (fun r => r.date)) =
      some (maxDateFor
        [⟨7, 3, 1, 1, 1, 1, 1, 1⟩, ⟨7, 5, 1, 1, 1, 1, 1, 1⟩] 7) :=
  (c9_window_anchored_at_latest
      [⟨7, 3, 1, 1, 1, 1, 1, 1⟩, ⟨7, 5, 1, 1, 1, 1, 1, 1⟩] 7
      Interval.week
      ⟨⟨7, 3, 1, 1, 1, 1, 1, 1⟩, by decide, rfl⟩).2.2.2.1

/-- C10: a symbol with no stored rows gets a success response: HTTP 200,
empty data and the no-data message; the 500 response (still with empty
data) arises exactly when the store query itself throws. -/
theorem c10_empty_symbol_success (tbl : List OhlcvRow) (s : Sym)
    (i : Interval) (e : String) :
    ((∀ r ∈ tbl, r.symbol ≠ s) →
      routeGET (.ok tbl) s i =
        ⟨200, [], some noDataMessage, none, none, none⟩) ∧
    routeGET (.error e) s i = ⟨500, [], none, none, none, some e⟩ ∧
    ∀ db : Except String (List OhlcvRow),
      (routeGET db s i).status = 500 → ∃ e2, db = .error e2 := by
  have hok200 : ∀ tbl2 : List OhlcvRow, (routeGETok tbl2 s i).status = 200 := by
    intro tbl2
    unfold routeGETok
    cases queryDesc tbl2 s none 1 with
    | nil => rfl
    | cons a t => rfl
  refine ⟨?_, rfl, ?_⟩
  · intro hno
    have hfil : tbl.filter (rowMatch s none) = [] := by
      rw [List.filter_eq_nil_iff]
      intro r hr
      simp [rowMatch]
      intro hrs
      exact absurd hrs (hno r hr)
    show routeGETok tbl s i = _
    unfold routeGETok
    have hq : queryDesc tbl s none 1 = [] := by
      unfold queryDesc
      rw [hfil]
      rfl
    rw [hq]
  · intro db hdb
    cases db with
    | error e2 => exact ⟨e2, rfl⟩
    | ok tbl2 =>
      exfalso
      have h2 : (routeGET (Except.ok tbl2) s i).status = 200 := hok200 tbl2
      rw [hdb] at h2
      exact absurd h2 (by decide)

/-- C10 witness: a store holding only symbol 9's rows answers the query
for symbol 7 with status 200, empty data and the no-data message. -/
theorem c10_empty_symbol_success_witness :
    routeGET (Except.ok [⟨9, 3, 1, 1, 1, 1, 1, 1⟩]) 7 Interval.max =
      ⟨200, [], some noDataMessage, none, none, none⟩ :=
  (c10_empty_symbol_success [⟨9, 3, 1, 1, 1, 1, 1, 1⟩] 7 Interval.max
      (String.mk [])).1
    (by decide)

end CryptoTracker
